import Mathlib

/-!
Verification development for the skill-gap-analyzer matching engine.

This file gives a shallow embedding of the core matching code
(`python-service/data_processor.py` and `python-service/skill_matcher.py`)
and proves or refutes the specified properties about it.

Modelling conventions:
* Python `float` is modelled by `ℚ`.  All the confidence arithmetic of the
  source is exact decimal arithmetic, so this is faithful except for
  floating-point rounding, which no claim depends on.
* Python `dict` is modelled by an association list with insert-or-update
  semantics (`dictInsert`), which preserves Python's insertion-order
  iteration and its key-overwrite-keeps-position behaviour.
* The trained models used by the code (sentence-transformer embeddings,
  spaCy noun chunking, the fitted TF-IDF vector space and the cue-phrase
  regular expressions of `contextual_match`) are external black boxes; they
  are modelled as oracle functions supplied to the matcher.  Everything the
  source computes *around* those calls is embedded concretely.
* `str.lower` is modelled on basic latin letters (the vocabulary and all
  characters surviving normalization are ASCII).
* A fallible Python computation (one that can raise) is embedded as
  `Except String _`; a `ZeroDivisionError` branch is an `Except.error`.
-/

namespace SkillGap

/-! ## Text normalizer (`DataProcessor.normalize_text`) -/

/-- Whitespace characters matched by `\s` (ASCII range). -/
def isWsChar (c : Char) : Bool :=
  c = ' ' || c = '\t' || c = '\n' || c = '\r' || c = '\x0b' || c = '\x0c'

/-- Characters kept by the first substitution of `normalize_text`, whose
pattern is the negation of the class: a-z, 0-9, plus, dot, hash, hyphen,
slash, and whitespace. -/
def keepChar (c : Char) : Bool :=
  (97 ≤ c.toNat && c.toNat ≤ 122) || (48 ≤ c.toNat && c.toNat ≤ 57) ||
    c = '+' || c = '.' || c = '#' || c = '-' || c = '/' || isWsChar c

/-- One character of the first substitution: characters outside the kept
class are replaced by a single space. -/
def keepOrSpace (c : Char) : Char :=
  if keepChar c then c else ' '

/-- `re.sub(r"\s+", " ", text)`: every maximal run of whitespace characters
is replaced by a single space. -/
def subWs : List Char → List Char
  | [] => []
  | [c] => if isWsChar c then [' '] else [c]
  | c1 :: c2 :: cs =>
    if isWsChar c1 && isWsChar c2 then subWs (c2 :: cs)
    else (if isWsChar c1 then ' ' else c1) :: subWs (c2 :: cs)

/-- Left part of Python `str.strip`. -/
def lstripChars (l : List Char) : List Char :=
  l.dropWhile isWsChar

/-- Right part of Python `str.strip`. -/
def rstripChars (l : List Char) : List Char :=
  (l.reverse.dropWhile isWsChar).reverse

/-- Python `str.strip`. -/
def stripChars (l : List Char) : List Char :=
  rstripChars (lstripChars l)

/-- `str.lower` on one character (basic latin). -/
def pyLowerChar (c : Char) : Char :=
  Char.toLower c

/-- `str.lower` on a string. -/
def pyStrLower (s : String) : String :=
  String.mk (s.data.map pyLowerChar)

/-- `DataProcessor.normalize_text`: guard on empty input, lowercase, replace
characters outside the kept class by spaces, collapse whitespace runs,
strip the ends. -/
def normalizeText (s : String) : String :=
  if s.isEmpty then ""
  else String.mk (stripChars (subWs ((s.data.map pyLowerChar).map keepOrSpace)))

/-- `DataProcessor.normalize_text` applied to an optional (possibly `None`)
argument: `if not text: return ""` covers both `None` and `""`. -/
def normalizeTextOpt : Option String → String
  | none => ""
  | some s => normalizeText s

/-! ### Normalizer lemmas -/

theorem keepChar_toLower_eq_self {c : Char} (h : keepChar c = true) :
    Char.toLower c = c := by
  have hrange : c.toNat < 65 ∨ 90 < c.toNat := by
    simp only [keepChar, isWsChar, Bool.or_eq_true, Bool.and_eq_true,
      decide_eq_true_eq] at h
    rcases h with ((((((h | h) | h) | h) | h) | h) | h) |
      (((((h | h) | h) | h) | h) | h)
    · omega
    · omega
    all_goals (subst h; decide)
  have hcond : ¬ (c.toNat ≥ 65 ∧ c.toNat ≤ 90) := by omega
  simp only [Char.toLower]
  rw [if_neg hcond]

theorem keepChar_space : keepChar ' ' = true := by decide

theorem keepOrSpace_keep {c : Char} (h : keepChar c = true) : keepOrSpace c = c := by
  simp [keepOrSpace, h]

/-- Every character of `subWs l` is either a space or a non-whitespace
character of `l`. -/
theorem subWs_mem : ∀ (l : List Char), ∀ c ∈ subWs l,
    c = ' ' ∨ (c ∈ l ∧ isWsChar c = false)
  | [], c, hc => by simp [subWs] at hc
  | [a], c, hc => by
    by_cases ha : isWsChar a = true
    · simp [subWs, ha] at hc; left; exact hc
    · simp only [subWs, Bool.not_eq_true] at ha
      simp [subWs, ha] at hc
      right; subst hc; simp [ha]
  | a :: b :: l, c, hc => by
    by_cases hab : (isWsChar a && isWsChar b) = true
    · rw [subWs, if_pos hab] at hc
      rcases subWs_mem (b :: l) c hc with h | ⟨h1, h2⟩
      · left; exact h
      · right; exact ⟨List.mem_cons_of_mem _ h1, h2⟩
    · rw [subWs, if_neg hab] at hc
      rcases List.mem_cons.mp hc with h | h
      · by_cases ha : isWsChar a = true
        · left; simpa [ha] using h
        · simp only [Bool.not_eq_true] at ha
          simp only [ha, if_neg] at h
          right; subst h; simp [ha]
      · rcases subWs_mem (b :: l) c h with h' | ⟨h1, h2⟩
        · left; exact h'
        · right; exact ⟨List.mem_cons_of_mem _ h1, h2⟩

/-- The head of `subWs` applied to a list starting with a non-whitespace
character is that character. -/
theorem subWs_head_of_not_ws {a : Char} (l : List Char) (ha : isWsChar a = false) :
    (subWs (a :: l)).head? = some a := by
  cases l with
  | nil => simp [subWs, ha]
  | cons b l => simp [subWs, ha]

/-- `subWs` never produces two adjacent whitespace characters. -/
theorem subWs_chain' : ∀ (l : List Char),
    List.Chain' (fun x y => isWsChar x = false ∨ isWsChar y = false) (subWs l)
  | [] => by simp [subWs]
  | [a] => by
    by_cases ha : isWsChar a = true <;> simp [subWs, ha]
  | a :: b :: l => by
    by_cases hab : (isWsChar a && isWsChar b) = true
    · rw [subWs, if_pos hab]; exact subWs_chain' (b :: l)
    · rw [subWs, if_neg hab]
      rw [List.chain'_cons']
      refine ⟨?_, subWs_chain' (b :: l)⟩
      intro y hy
      by_cases ha : isWsChar a = true
      · have hb : isWsChar b = false := by
          cases hbv : isWsChar b
          · rfl
          · exact absurd (by simp [ha, hbv]) hab
        rw [subWs_head_of_not_ws l hb] at hy
        simp only [Option.mem_def, Option.some.injEq] at hy
        right; subst hy; exact hb
      · simp only [Bool.not_eq_true] at ha
        left; simp [ha]

/-- `subWs` is the identity on lists with no adjacent whitespace in which
every whitespace character is a plain space. -/
theorem subWs_id : ∀ (l : List Char),
    List.Chain' (fun x y => isWsChar x = false ∨ isWsChar y = false) l →
    (∀ c ∈ l, isWsChar c = true → c = ' ') →
    subWs l = l
  | [], _, _ => rfl
  | [a], _, hsp => by
    by_cases ha : isWsChar a = true
    · have : a = ' ' := hsp a (by simp) ha
      subst this; simp [subWs, isWsChar]
    · simp only [Bool.not_eq_true] at ha; simp [subWs, ha]
  | a :: b :: l, hch, hsp => by
    rw [List.chain'_cons] at hch
    have hab : ¬ (isWsChar a && isWsChar b) = true := by
      rcases hch.1 with h | h <;> simp [h]
    rw [subWs, if_neg hab]
    have htail : subWs (b :: l) = b :: l :=
      subWs_id (b :: l) hch.2 (fun c hc h => hsp c (List.mem_cons_of_mem _ hc) h)
    rw [htail]
    by_cases ha : isWsChar a = true
    · rw [if_pos ha, (hsp a (by simp) ha)]
    · simp only [Bool.not_eq_true] at ha; rw [ha]; simp

theorem dropWhile_eq_self_of_head {p : Char → Bool} {l : List Char}
    (h : ∀ c, l.head? = some c → p c = false) : l.dropWhile p = l := by
  cases l with
  | nil => rfl
  | cons a l => simp [List.dropWhile_cons, h a rfl]

/-- The head of a `dropWhile` result fails the predicate. -/
theorem head_dropWhile_false {p : Char → Bool} : ∀ (l : List Char) {c : Char},
    (l.dropWhile p).head? = some c → p c = false
  | [], c, h => by simp [List.dropWhile] at h
  | a :: l, c, h => by
    by_cases ha : p a = true
    · rw [List.dropWhile_cons, if_pos ha] at h
      exact head_dropWhile_false l h
    · simp only [Bool.not_eq_true] at ha
      rw [List.dropWhile_cons, if_neg (by simp [ha])] at h
      simp only [List.head?_cons, Option.some.injEq] at h
      subst h; exact ha

/-- `rstripChars` yields a prefix of its input. -/
theorem rstripChars_isPrefix (l : List Char) : (rstripChars l).IsPrefix l := by
  unfold rstripChars
  have h := List.dropWhile_suffix (l := l.reverse) isWsChar
  exact List.reverse_suffix.mp (by simpa using h)

theorem stripChars_sublist (l : List Char) : (stripChars l).Sublist l := by
  unfold stripChars
  exact ((rstripChars_isPrefix (lstripChars l)).sublist).trans
    (List.dropWhile_sublist isWsChar)

/-- The head of a stripped list is not whitespace. -/
theorem stripChars_head {l : List Char} {c : Char}
    (h : (stripChars l).head? = some c) : isWsChar c = false := by
  unfold stripChars at h
  rcases rstripChars_isPrefix (lstripChars l) with ⟨t, ht⟩
  have hne : rstripChars (lstripChars l) ≠ [] := by
    intro hnil; rw [hnil] at h; simp at h
  have : (lstripChars l).head? = some c := by
    rw [← ht]
    cases hx : rstripChars (lstripChars l) with
    | nil => exact absurd hx hne
    | cons y ys =>
      rw [hx] at h; simp only [List.head?_cons, Option.some.injEq] at h
      subst h; simp
  exact head_dropWhile_false l this

/-- The last element of a stripped list is not whitespace. -/
theorem stripChars_getLast {l : List Char} {c : Char}
    (h : (stripChars l).getLast? = some c) : isWsChar c = false := by
  unfold stripChars rstripChars at h
  rw [← List.head?_reverse, List.reverse_reverse] at h
  exact head_dropWhile_false _ h

/-- Stripping a list whose ends are not whitespace is the identity. -/
theorem stripChars_id {l : List Char}
    (hh : ∀ c, l.head? = some c → isWsChar c = false)
    (hl : ∀ c, l.getLast? = some c → isWsChar c = false) :
    stripChars l = l := by
  unfold stripChars lstripChars rstripChars
  rw [dropWhile_eq_self_of_head hh]
  rw [dropWhile_eq_self_of_head (by
    intro c hc
    rw [List.head?_reverse] at hc
    exact hl c hc)]
  exact List.reverse_reverse l

theorem stripChars_isInfix (l : List Char) : (stripChars l).IsInfix l := by
  have h1 : (stripChars l).IsInfix (lstripChars l) :=
    (rstripChars_isPrefix (lstripChars l)).isInfix
  have h2 : (lstripChars l).IsInfix l :=
    (List.dropWhile_suffix isWsChar).isInfix
  exact h1.trans h2

/-- Every character of a `normalizeText` output is in the kept class, is
fixed by lowercasing, and is a plain space if it is whitespace at all. -/
theorem normalizeText_char_prop (s : String) :
    ∀ c ∈ (normalizeText s).data,
      keepChar c = true ∧ Char.toLower c = c ∧ (isWsChar c = true → c = ' ') := by
  intro c hc
  unfold normalizeText at hc
  by_cases h0 : s.isEmpty
  · rw [if_pos h0] at hc; simp at hc
  · rw [if_neg h0] at hc
    have hc' : c ∈ stripChars (subWs ((s.data.map pyLowerChar).map keepOrSpace)) := hc
    have hsub : c ∈ subWs ((s.data.map pyLowerChar).map keepOrSpace) :=
      (stripChars_sublist _).mem hc'
    rcases subWs_mem _ c hsub with h | ⟨hmem, hws⟩
    · subst h
      exact ⟨keepChar_space, rfl, fun _ => rfl⟩
    · rcases List.mem_map.mp hmem with ⟨x, _, hx⟩
      unfold keepOrSpace at hx
      by_cases hk : keepChar x = true
      · rw [if_pos hk] at hx
        subst hx
        exact ⟨hk, keepChar_toLower_eq_self hk, fun hw => absurd hw (by simp [hws])⟩
      · rw [if_neg hk] at hx
        subst hx
        exact absurd hws (by decide)

/-- Auxiliary: `normalizeText` is the identity on its own outputs. -/
theorem normalizeText_fix (s : String) :
    normalizeText (normalizeText s) = normalizeText s := by
  by_cases ht : (normalizeText s).isEmpty
  · rw [normalizeText, if_pos ht, ((String.isEmpty_iff _).mp ht)]
  · have hchar := normalizeText_char_prop s
    rw [normalizeText, if_neg ht]
    have h1 : (normalizeText s).data.map pyLowerChar = (normalizeText s).data :=
      List.map_congr_left (fun a ha => (hchar a ha).2.1) |>.trans
        (List.map_id _)
    rw [h1]
    have h2 : (normalizeText s).data.map keepOrSpace = (normalizeText s).data :=
      List.map_congr_left (fun a ha => keepOrSpace_keep (hchar a ha).1) |>.trans
        (List.map_id _)
    rw [h2]
    have hform : ∃ l : List Char, (normalizeText s).data = stripChars (subWs l) := by
      refine ⟨(s.data.map pyLowerChar).map keepOrSpace, ?_⟩
      rw [normalizeText, if_neg ?_]
      · intro h0
        rw [normalizeText, if_pos h0] at ht
        exact ht rfl
    obtain ⟨l, hl⟩ := hform
    have hchain : List.Chain' (fun x y => isWsChar x = false ∨ isWsChar y = false)
        (normalizeText s).data := by
      rw [hl]
      exact List.Chain'.infix (subWs_chain' l) (stripChars_isInfix _)
    have h3 : subWs (normalizeText s).data = (normalizeText s).data :=
      subWs_id _ hchain (fun c hc hw => (hchar c hc).2.2 hw)
    rw [h3]
    have h4 : stripChars (normalizeText s).data = (normalizeText s).data := by
      apply stripChars_id
      · intro c hc
        rw [hl] at hc
        exact stripChars_head hc
      · intro c hc
        rw [hl] at hc
        exact stripChars_getLast hc
    rw [h4]

/-! ## Python dict as an insertion-ordered association list -/

/-- `d[k] = v` on a Python dict: update in place if the key exists
(keeping its position), otherwise append. -/
def dictInsert {β : Type} (k : String) (v : β) : List (String × β) → List (String × β)
  | [] => [(k, v)]
  | (k', v') :: rest => if k' = k then (k, v) :: rest else (k', v') :: dictInsert k v rest

/-- `d.get(k)` on a Python dict. -/
def dictLookup {β : Type} (k : String) : List (String × β) → Option β
  | [] => none
  | (k', v) :: rest => if k' = k then some v else dictLookup k rest

/-- `list(d.keys())` on a Python dict. -/
def dictKeys {β : Type} (d : List (String × β)) : List String :=
  d.map (·.1)

/-! ## A stable sort

Python's `list.sort` and `sorted` are stable.  They are modelled by a
structurally recursive stable insertion sort (`le a b` meaning "a may come
before b"): among elements comparing equal the original order is kept,
exactly as in CPython. -/

/-- Insert `x` before the first element `y` with `le x y`. -/
def sinsert {α : Type} (le : α → α → Bool) (x : α) : List α → List α
  | [] => [x]
  | y :: ys => if le x y then x :: y :: ys else y :: sinsert le x ys

/-- Stable insertion sort. -/
def stableSort {α : Type} (le : α → α → Bool) : List α → List α
  | [] => []
  | x :: xs => sinsert le x (stableSort le xs)

theorem mem_sinsert {α : Type} (le : α → α → Bool) (x a : α) :
    ∀ (l : List α), a ∈ sinsert le x l ↔ a = x ∨ a ∈ l
  | [] => by simp [sinsert]
  | y :: ys => by
    by_cases h : le x y = true
    · simp [sinsert, h]
    · simp only [sinsert, if_neg h, List.mem_cons, mem_sinsert le x a ys]
      tauto

theorem mem_stableSort {α : Type} (le : α → α → Bool) (a : α) :
    ∀ (l : List α), a ∈ stableSort le l ↔ a ∈ l
  | [] => by simp [stableSort]
  | x :: xs => by
    simp only [stableSort, mem_sinsert, List.mem_cons, mem_stableSort le a xs]

theorem pairwise_sinsert {α : Type} (le : α → α → Bool)
    (htrans : ∀ a b c, le a b = true → le b c = true → le a c = true)
    (htot : ∀ a b, le a b = true ∨ le b a = true) (x : α) :
    ∀ (l : List α), List.Pairwise (fun a b => le a b = true) l →
      List.Pairwise (fun a b => le a b = true) (sinsert le x l)
  | [], _ => by simp [sinsert]
  | y :: ys, hp => by
    rcases List.pairwise_cons.mp hp with ⟨hy, hys⟩
    by_cases h : le x y = true
    · rw [sinsert, if_pos h]
      refine List.pairwise_cons.mpr ⟨?_, hp⟩
      intro b hb
      rcases List.mem_cons.mp hb with rfl | hb
      · exact h
      · exact htrans x y b h (hy b hb)
    · rw [sinsert, if_neg h]
      refine List.pairwise_cons.mpr
        ⟨?_, pairwise_sinsert le htrans htot x ys hys⟩
      intro b hb
      rcases (mem_sinsert le x b ys).mp hb with heq | hb
      · rw [heq]
        exact (htot x y).resolve_left (by simpa using h)
      · exact hy b hb

/-- Sorting with a transitive total comparison yields a pairwise-sorted
list. -/
theorem pairwise_stableSort {α : Type} (le : α → α → Bool)
    (htrans : ∀ a b c, le a b = true → le b c = true → le a c = true)
    (htot : ∀ a b, le a b = true ∨ le b a = true) :
    ∀ (l : List α), List.Pairwise (fun a b => le a b = true) (stableSort le l)
  | [] => by simp [stableSort]
  | x :: xs => by
    rw [stableSort]
    exact pairwise_sinsert le htrans htot x (stableSort le xs)
      (pairwise_stableSort le htrans htot xs)

/-! ## Data model -/

/-- `SkillMatch` dataclass of `skill_matcher.py`.  Confidence is modelled
by `ℚ`. -/
structure SkillMatch where
  skill : String
  confidence : ℚ
  method : String
  context : Option String
  category : Option String
deriving DecidableEq

/-- A learning-recommendation record (`DataProcessor.recommendations`
values). -/
structure RecEntry where
  courses : List String
  difficulty : String
  time_estimate : String
deriving DecidableEq

/-- The `self.config` dict of `SkillMatcher.__init__`. -/
structure MatcherConfig where
  exact_match_boost : ℚ
  semantic_threshold : ℚ
  fuzzy_threshold : ℚ
  context_window : Nat
  min_confidence : ℚ

/-- The default configuration installed by `SkillMatcher.__init__`. -/
def defaultConfig : MatcherConfig :=
  { exact_match_boost := 1, semantic_threshold := 55/100, fuzzy_threshold := 85/100,
    context_window := 50, min_confidence := 3/10 }

/-- State of a `DataProcessor` after initialization: the primary tables
plus the derived variant index. -/
structure DataProcessor where
  canonical_skills : List String
  skill_categories : List (String × String)
  skill_synonyms : List (String × List String)
  recommendations : List (String × RecEntry)
  variant_to_canonical : List (String × String)
  sorted_variants : List String

/-- `DataProcessor._build_variant_mappings`, first part: identity mapping
for every canonical skill, then all synonym variants (lower-cased),
overwriting. -/
def buildVariantToCanonical (canonical_skills : List String)
    (skill_synonyms : List (String × List String)) : List (String × String) :=
  let d0 := canonical_skills.foldl (fun d skill => dictInsert skill skill d) []
  skill_synonyms.foldl
    (fun d cv => cv.2.foldl (fun d v => dictInsert (pyStrLower v) cv.1 d) d) d0

/-- `DataProcessor._build_variant_mappings`, second part: all variants
sorted by descending length (Python's stable sort with key `-len`). -/
def buildSortedVariants (v2c : List (String × String)) : List String :=
  stableSort (fun a b => decide (b.length ≤ a.length)) (dictKeys v2c)

/-- Assemble a processor state from the primary tables, running the
derived-index build of `_build_variant_mappings`. -/
def mkDataProcessor (canonical_skills : List String)
    (skill_categories : List (String × String))
    (skill_synonyms : List (String × List String))
    (recommendations : List (String × RecEntry)) : DataProcessor :=
  let v2c := buildVariantToCanonical canonical_skills skill_synonyms
  { canonical_skills := canonical_skills, skill_categories := skill_categories,
    skill_synonyms := skill_synonyms, recommendations := recommendations,
    variant_to_canonical := v2c, sorted_variants := buildSortedVariants v2c }

/-- `DataProcessor.get_skill_category`. -/
def getSkillCategory (p : DataProcessor) (skill : String) : String :=
  (dictLookup (pyStrLower skill) p.skill_categories).getD "uncategorized"

/-- The TF-IDF corpus built by `SkillMatcher._initialize_tfidf`: for each
canonical skill, the skill itself followed by its synonym variants. -/
def corpusDocs (p : DataProcessor) : List String :=
  p.canonical_skills.foldl (fun corpus skill =>
    let corpus := corpus ++ [skill]
    match dictLookup skill p.skill_synonyms with
    | some vs => corpus ++ vs
    | none => corpus) []

/-- The explicit corpus-document-to-owning-skill table (built alongside
the corpus, in the same order): document `i` of `corpusDocs` is owned by
skill `(corpusOwners p).getD i ""`. -/
def corpusOwners (p : DataProcessor) : List String :=
  p.canonical_skills.foldl (fun owners skill =>
    let owners := owners ++ [skill]
    match dictLookup skill p.skill_synonyms with
    | some vs => owners ++ vs.map (fun _ => skill)
    | none => owners) []

/-- The description strings embedded by `SkillMatcher._cache_skill_embeddings`. -/
def skillDescriptions (p : DataProcessor) : List String :=
  p.canonical_skills.map (fun skill =>
    skill ++ " " ++ getSkillCategory p skill ++ " technology programming development")

/-- State of a `SkillMatcher` after `__init__`: `none` in `tfidf_corpus`
or `skill_embeddings` models the early-return of the two initializers when
the vocabulary is empty. -/
structure SkillMatcher where
  processor : DataProcessor
  tfidf_corpus : Option (List String)
  skill_embeddings : Option (List String)
  config : MatcherConfig

/-- `SkillMatcher.__init__` over a given processor state. -/
def mkSkillMatcher (p : DataProcessor) : SkillMatcher :=
  { processor := p
    tfidf_corpus := if p.canonical_skills.isEmpty then none else some (corpusDocs p)
    skill_embeddings := if p.canonical_skills.isEmpty then none else some (skillDescriptions p)
    config := defaultConfig }

/-- The trained black-box models consulted by the matcher, per the spec's
own framing: TF-IDF cosine similarities against the corpus documents,
sentence-embedding cosine scores against the cached skill embeddings, and
the phrase extractors of `contextual_match` (spaCy noun chunks and the
cue-phrase regular expressions). -/
structure Oracles where
  fuzzySims : String → List ℚ
  cosScores : String → List ℚ
  nounChunks : String → List String
  cuePhrases : String → List String

/-! ## Word-boundary regex search

`exact_match` searches for `r"\b" + re.escape(variant) + r"\b"`.  Since
the variant is escaped, the only regex behaviour to model is the
word-boundary assertion: a position is a boundary when exactly one of the
adjacent characters is a word character (positions outside the text count
as non-word). -/

/-- A regex word character (the text being searched is normalized, hence
ASCII). -/
def isWordChar (c : Char) : Bool :=
  c.isAlphanum || c = '_'

/-- Is the character at index `i` a word character (out of range counts as
non-word)? -/
def wordAt (t : List Char) (i : Nat) : Bool :=
  match t.get? i with
  | some c => isWordChar c
  | none => false

/-- Does the word-boundary assertion hold at position `j`? -/
def boundaryAt (t : List Char) (j : Nat) : Bool :=
  (if j = 0 then false else wordAt t (j - 1)) != wordAt t j

/-- Does the pattern (boundary, literal `v`, boundary) match at `i`? -/
def matchesAt (v t : List Char) (i : Nat) : Bool :=
  decide ((t.drop i).take v.length = v) && boundaryAt t i && boundaryAt t (i + v.length)

/-- `re.search` as a boolean: does the pattern match anywhere? -/
def reSearch (v t : List Char) : Bool :=
  (List.range (t.length + 1)).any (matchesAt v t)

/-- `re.search` returning the start of the leftmost match. -/
def reFind (v t : List Char) : Option Nat :=
  (List.range (t.length + 1)).find? (matchesAt v t)

/-- The context window slice `normalized[start:end]` of `exact_match`. -/
def contextSlice (t : List Char) (i vlen window : Nat) : List Char :=
  (t.take (min t.length (i + vlen + window))).drop (i - window)

/-- Python substring containment (`a in b` for strings). -/
def isSubstrOf (needle hay : List Char) : Bool :=
  (List.range (hay.length + 1)).any
    (fun i => decide ((hay.drop i).take needle.length = needle))

/-! ## Matching strategies -/

/-- `SkillMatcher.exact_match`: scan the length-sorted variant index with
word-boundary search over the normalized text, resolving each hit to its
canonical skill, with per-canonical deduplication and a context window
around the first occurrence. -/
def exactMatch (m : SkillMatcher) (text : String) : List SkillMatch :=
  let normalized := (normalizeText text).data
  m.processor.sorted_variants.foldl (fun found variant =>
    if reSearch variant.data normalized then
      let canonical := (dictLookup variant m.processor.variant_to_canonical).getD ""
      let context : Option String :=
        match reFind variant.data normalized with
        | some i =>
          some (String.mk (contextSlice normalized i variant.data.length
            m.config.context_window))
        | none => none
      if found.any (fun mt => mt.skill == canonical) then found
      else found ++ [{ skill := canonical,
                         confidence := 1 * m.config.exact_match_boost,
                         method := "exact",
                         context := context,
                         category := some (getSkillCategory m.processor canonical) }]
    else found) []

/-- The loop body of `fuzzy_match`: map a hit index back to a canonical
skill by `idx % len(canonical_skills)` and record it unless that skill was
already found. -/
def fuzzyStep (m : SkillMatcher) (similarities : List ℚ)
    (found : List SkillMatch) (idx : Nat) : List SkillMatch :=
  let skill_idx := idx % m.processor.canonical_skills.length
  let skill := m.processor.canonical_skills.getD skill_idx ""
  if found.any (fun mt => mt.skill == skill) then found
  else found ++ [{ skill := skill,
                   confidence := similarities.getD idx 0,
                   method := "fuzzy",
                   context := none,
                   category := some (getSkillCategory m.processor skill) }]

/-- `SkillMatcher.fuzzy_match`: indices of corpus documents whose cosine
similarity reaches the fuzzy threshold are mapped back to a canonical
skill by `idx % len(canonical_skills)`, keeping the first hit per skill. -/
def fuzzyMatch (m : SkillMatcher) (o : Oracles) (text : String) : List SkillMatch :=
  match m.tfidf_corpus with
  | none => []
  | some _ =>
    let normalized := normalizeText text
    let similarities := o.fuzzySims normalized
    let threshold_indices := (List.range similarities.length).filter
      (fun i => decide (m.config.fuzzy_threshold ≤ similarities.getD i 0))
    threshold_indices.foldl (fuzzyStep m similarities) []

/-- `torch.topk`: the `min k n` highest-scoring (index, score) pairs in
descending score order. -/
def topkPairs (scores : List ℚ) (k : Nat) : List (Nat × ℚ) :=
  (stableSort (fun a b => decide (b.2 ≤ a.2)) scores.enum).take (min k scores.length)

/-- `SkillMatcher.semantic_match`: guard on missing embeddings and empty
normalized text, then keep top-k cosine scores at or above the semantic
threshold. -/
def semanticMatch (m : SkillMatcher) (o : Oracles) (text : String) (top_k : Nat) :
    List SkillMatch :=
  match m.skill_embeddings with
  | none => []
  | some _ =>
    let normalized := normalizeText text
    if normalized = "" then []
    else
      let cos_scores := o.cosScores normalized
      let top_results := topkPairs cos_scores top_k
      top_results.foldl (fun found p =>
        if m.config.semantic_threshold ≤ p.2 then
          found ++ [{ skill := m.processor.canonical_skills.getD p.1 "",
                        confidence := p.2,
                        method := "semantic",
                        context := none,
                        category := some (getSkillCategory m.processor
                          (m.processor.canonical_skills.getD p.1 "")) }]
        else found) []

/-- `SkillMatcher.contextual_match`: extract phrases (noun chunks plus
cue-pattern hits, both black-box extractions over the lowercased text),
normalize each, match by bidirectional substring containment at fixed
confidence 0.7, and deduplicate keeping the highest-confidence occurrence
per skill. -/
def contextualMatch (m : SkillMatcher) (o : Oracles) (text : String) : List SkillMatch :=
  let lowered := pyStrLower text
  let technical_phrases := o.nounChunks lowered ++ o.cuePhrases lowered
  let found := technical_phrases.foldl (fun acc phrase =>
    let normalized_phrase := normalizeText phrase
    m.processor.canonical_skills.foldl (fun acc skill =>
      if isSubstrOf skill.data normalized_phrase.data ||
          isSubstrOf normalized_phrase.data skill.data then
        acc ++ [{ skill := skill, confidence := 7/10, method := "contextual",
                  context := some phrase,
                  category := some (getSkillCategory m.processor skill) }]
      else acc) acc) []
  let unique := found.foldl (fun (d : List (String × SkillMatch)) mt =>
    match dictLookup mt.skill d with
    | none => dictInsert mt.skill mt d
    | some old => if old.confidence < mt.confidence then dictInsert mt.skill mt d else d) []
  unique.map (·.2)

/-! ## Hybrid aggregator -/

/-- Python float division: raises `ZeroDivisionError` on a zero divisor. -/
def pydiv (a b : ℚ) : Except String ℚ :=
  if b = 0 then Except.error "ZeroDivisionError" else Except.ok (a / b)

/-- The default strategy weights of `hybrid_match`. -/
def defaultStrategyWeights : List (String × ℚ) :=
  [("exact", 1), ("fuzzy", 7/10), ("semantic", 4/5), ("contextual", 3/5)]

/-- One per-skill accumulator entry of `hybrid_match`'s `all_matches`. -/
structure AggEntry where
  skill : String
  confidence : ℚ
  methods : List String
  category : Option String
  contexts : List String

/-- Folding one strategy match into `all_matches` with the strategy's
weight. -/
def aggStep (weight : ℚ) (d : List (String × AggEntry)) (mt : SkillMatch) :
    List (String × AggEntry) :=
  let entry :=
    match dictLookup mt.skill d with
    | some e => e
    | none => { skill := mt.skill, confidence := 0, methods := [],
                category := mt.category, contexts := [] }
  let entry := { entry with
    confidence := entry.confidence + mt.confidence * weight,
    methods := entry.methods ++ [mt.method],
    contexts := entry.contexts ++
      (match mt.context with
       | some c => if c = "" then [] else [c]
       | none => []) }
  dictInsert mt.skill entry d

/-- Sum of the values of a weights dict (`sum(strategy_weights.values())`). -/
def weightValuesSum (w : List (String × ℚ)) : ℚ :=
  (w.map (·.2)).sum

/-- The normalization loop of `hybrid_match`: for every accumulated entry,
in order, divide its aggregate confidence by `max_possible_score` (this is
where a `ZeroDivisionError` can be raised) and clamp at 1. -/
def normalizeScores (s : ℚ) : List (String × AggEntry) →
    Except String (List (ℚ × AggEntry))
  | [] => Except.ok []
  | e :: rest => do
    let q ← pydiv e.2.confidence s
    let tail ← normalizeScores s rest
    pure ((min 1 q, e.2) :: tail)

/-- The strategy-running and aggregation phase of `hybrid_match`: run the
four strategies in order and fold every returned match into `all_matches`
with the strategy's weight (`strategy_weights.get(name, 1.0)`). -/
def hybridAgg (m : SkillMatcher) (o : Oracles) (text : String)
    (w : List (String × ℚ)) : List (String × AggEntry) :=
  let runs : List (String × List SkillMatch) :=
    [("exact", exactMatch m text),
     ("fuzzy", fuzzyMatch m o text),
     ("semantic", semanticMatch m o text 10),
     ("contextual", contextualMatch m o text)]
  runs.foldl (fun d run =>
    let weight := (dictLookup run.1 w).getD 1
    run.2.foldl (aggStep weight) d) []

/-- The final phase of `hybrid_match` after normalization: drop entries
whose clamped confidence is below the minimum-confidence floor, build the
result records, and sort by descending confidence (Python's stable
`sort(reverse=True)`).  The method tag of the source is
`'+'.join(set(methods))` whose iteration order Python does not fix; it is
modelled as the joined deduplicated list. -/
def hybridFinalize (cfg : MatcherConfig) (normalized : List (ℚ × AggEntry)) :
    List SkillMatch :=
  let final_matches := (normalized.filter
      (fun p => decide (cfg.min_confidence ≤ p.1))).map
    (fun p =>
      ({ skill := p.2.skill, confidence := p.1,
         method := String.intercalate "+" p.2.methods.dedup,
         context := if p.2.contexts.isEmpty then none
                    else some (String.intercalate "; " (p.2.contexts.take 2)),
         category := p.2.category } : SkillMatch))
  stableSort (fun a b => decide (b.confidence ≤ a.confidence)) final_matches

/-- `SkillMatcher.hybrid_match`, assembled: aggregate, normalize (fallibly),
filter and sort. -/
def hybridMatch (m : SkillMatcher) (o : Oracles) (text : String)
    (strategy_weights : Option (List (String × ℚ))) :
    Except String (List SkillMatch) :=
  let w := strategy_weights.getD defaultStrategyWeights
  let all_matches := hybridAgg m o text w
  let max_possible_score := weightValuesSum w
  do
    let normalized ← normalizeScores max_possible_score all_matches
    pure (hybridFinalize m.config normalized)

/-! ## Dispatch and gap analysis -/

/-- The `MatchingStrategy` enum. -/
inductive MatchingStrategy where
  | EXACT
  | FUZZY
  | SEMANTIC
  | HYBRID
  | CONTEXTUAL
deriving DecidableEq

/-- `SkillMatcher.match_skills`: dispatch on the strategy (any value other
than the four named ones falls to the hybrid branch, which is only
`HYBRID` here since the enum is closed), then return the sorted
deduplicated skill names. -/
def matchSkills (m : SkillMatcher) (o : Oracles) (text : String)
    (strategy : MatchingStrategy) : Except String (List String) := do
  let mres ←
    (match strategy with
     | .EXACT => pure (exactMatch m text)
     | .FUZZY => pure (fuzzyMatch m o text)
     | .SEMANTIC => pure (semanticMatch m o text 10)
     | .CONTEXTUAL => pure (contextualMatch m o text)
     | .HYBRID => hybridMatch m o text none)
  pure (Finset.sort (α := String) (· ≤ ·) ((mres.map (·.skill)).toFinset))

/-- `SkillMatcher.match_skills_detailed`: same dispatch, full match
objects. -/
def matchSkillsDetailed (m : SkillMatcher) (o : Oracles) (text : String)
    (strategy : MatchingStrategy) : Except String (List SkillMatch) :=
  match strategy with
  | .EXACT => pure (exactMatch m text)
  | .FUZZY => pure (fuzzyMatch m o text)
  | .SEMANTIC => pure (semanticMatch m o text 10)
  | .CONTEXTUAL => pure (contextualMatch m o text)
  | .HYBRID => hybridMatch m o text none

/-- The Python enum constructor `MatchingStrategy(s)`: resolves a strategy
name by value, raising `ValueError` for an unrecognized name.  This is the
name-resolution step the API layer runs before invoking the engine. -/
def pyParseStrategy (s : String) : Except String MatchingStrategy :=
  if s = "exact" then Except.ok MatchingStrategy.EXACT
  else if s = "fuzzy" then Except.ok MatchingStrategy.FUZZY
  else if s = "semantic" then Except.ok MatchingStrategy.SEMANTIC
  else if s = "hybrid" then Except.ok MatchingStrategy.HYBRID
  else if s = "contextual" then Except.ok MatchingStrategy.CONTEXTUAL
  else Except.error "ValueError: not a valid MatchingStrategy"

/-- The engine's `match` entry point as seen with a strategy *name*
(`api_server.py` runs `MatchingStrategy(strategy.lower())` and surfaces
the `ValueError` of an unrecognized name to the caller instead of calling
the engine). -/
def matchSkillsByName (m : SkillMatcher) (o : Oracles) (text name : String) :
    Except String (List String) := do
  let st ← pyParseStrategy (pyStrLower name)
  matchSkills m o text st

/-- Round-half-to-even on the integer scale, the rounding mode of Python's
`round`. -/
def pyRoundHalfEven (q : ℚ) : ℤ :=
  let f := ⌊q⌋
  let r := q - f
  if r < 1/2 then f
  else if 1/2 < r then f + 1
  else if 2 ∣ f then f else f + 1

/-- Python `round(x, 2)` (modelled over `ℚ`). -/
def pyRound2 (q : ℚ) : ℚ :=
  (pyRoundHalfEven (q * 100) : ℚ) / 100

/-- The non-detailed gap report of `analyze_skill_gap`. -/
structure GapReport where
  matched_skills : List String
  missing_skills : List String
  additional_skills : List String
  match_percentage : ℚ
  total_job_skills : Nat
  total_resume_skills : Nat

/-- `sorted(list(s))` on a Python set of strings. -/
def sortedSkillList (s : Finset String) : List String :=
  Finset.sort (α := String) (· ≤ ·) s

/-- `SkillMatcher.analyze_skill_gap` with `detailed=False`: set operations
on the two extracted skill sets, alphabetically sorted output lists, and
the guarded match percentage. -/
def analyzeSkillGap (m : SkillMatcher) (o : Oracles) (resume_text job_text : String) :
    Except String GapReport := do
  let resumeList ← matchSkills m o resume_text MatchingStrategy.HYBRID
  let jobList ← matchSkills m o job_text MatchingStrategy.HYBRID
  let resume_skills := resumeList.toFinset
  let job_skills := jobList.toFinset
  let matched := resume_skills ∩ job_skills
  let missing := job_skills \ resume_skills
  let additional := resume_skills \ job_skills
  let match_percent : ℚ :=
    if job_skills = ∅ then 0
    else pyRound2 ((matched.card : ℚ) / (job_skills.card : ℚ) * 100)
  pure { matched_skills := sortedSkillList matched,
         missing_skills := sortedSkillList missing,
         additional_skills := sortedSkillList additional,
         match_percentage := match_percent,
         total_job_skills := job_skills.card,
         total_resume_skills := resume_skills.card }

/-- A `matched_skills` entry of the detailed gap report. -/
structure MatchedInfo where
  resume_confidence : ℚ
  job_confidence : ℚ
  category : Option String

/-- A `missing_skills` entry of the detailed gap report
(`recommendations.get(skill, {})` is `none` when absent). -/
structure MissingInfo where
  confidence : ℚ
  category : Option String
  recommendations : Option RecEntry

/-- An `additional_skills` entry of the detailed gap report. -/
structure AdditionalInfo where
  confidence : ℚ
  category : Option String

/-- The detailed gap report of `analyze_skill_gap`. -/
structure DetailedGapReport where
  matched_skills : List (String × MatchedInfo)
  missing_skills : List (String × MissingInfo)
  additional_skills : List (String × AdditionalInfo)
  match_percentage : ℚ
  total_job_skills : Nat
  total_resume_skills : Nat

/-- The pure body of detailed `analyze_skill_gap` once both match lists
are extracted: per-skill dicts keyed by skill with confidences and
categories, recommendations for missing skills, and the same guarded
match-percentage formula over the dict sizes. -/
def detailedGapFrom (m : SkillMatcher)
    (resume_matches job_matches : List SkillMatch) : DetailedGapReport :=
  let resume_skills := resume_matches.foldl (fun d mt => dictInsert mt.skill mt d) []
  let job_skills := job_matches.foldl (fun d mt => dictInsert mt.skill mt d) []
  let step := job_skills.foldl
    (fun (p : List (String × MatchedInfo) × List (String × MissingInfo)) e =>
      match dictLookup e.1 resume_skills with
      | some rm =>
        (dictInsert e.1 { resume_confidence := rm.confidence,
                          job_confidence := e.2.confidence,
                          category := e.2.category } p.1, p.2)
      | none =>
        (p.1, dictInsert e.1 { confidence := e.2.confidence,
                               category := e.2.category,
                               recommendations :=
                                 dictLookup e.1 m.processor.recommendations } p.2))
    ([], [])
  let matched := step.1
  let missing := step.2
  let additional := resume_skills.foldl
    (fun (d : List (String × AdditionalInfo)) e =>
      match dictLookup e.1 job_skills with
      | some _ => d
      | none => dictInsert e.1 { confidence := e.2.confidence,
                                 category := e.2.category } d) []
  let match_percent : ℚ :=
    if job_skills.isEmpty then 0
    else pyRound2 ((matched.length : ℚ) / (job_skills.length : ℚ) * 100)
  { matched_skills := matched, missing_skills := missing,
    additional_skills := additional, match_percentage := match_percent,
    total_job_skills := job_skills.length,
    total_resume_skills := resume_skills.length }

/-- `SkillMatcher.analyze_skill_gap` with `detailed=True`. -/
def analyzeSkillGapDetailed (m : SkillMatcher) (o : Oracles)
    (resume_text job_text : String) : Except String DetailedGapReport := do
  let resume_matches ← matchSkillsDetailed m o resume_text MatchingStrategy.HYBRID
  let job_matches ← matchSkillsDetailed m o job_text MatchingStrategy.HYBRID
  pure (detailedGapFrom m resume_matches job_matches)

/-! ## The repository's skills database

Transcribed from `DataProcessor._load_skills_database` (the `skills_db`
category table). -/

def skillsDb : List (String × List String) :=
  [("programming_languages",
    ["python", "javascript", "typescript", "java", "c++", "c#", "ruby", "go",
     "rust", "kotlin", "swift", "php", "r", "matlab", "scala", "perl", "bash",
     "powershell", "sql", "plsql", "t-sql", "objective-c", "dart", "julia",
     "haskell", "clojure", "erlang", "elixir", "f#", "visual basic", "cobol"]),
   ("frontend",
    ["react", "angular", "vue.js", "svelte", "next.js", "nuxt.js", "gatsby",
     "html", "css", "sass", "less", "tailwind css", "bootstrap", "material ui",
     "jquery", "webpack", "babel", "redux", "mobx", "rxjs", "graphql",
     "apollo", "relay", "ember.js", "backbone.js", "alpine.js", "lit"]),
   ("backend",
    ["node.js", "express", "django", "flask", "fastapi", "spring boot", "rails",
     "asp.net", "laravel", "symfony", "gin", "echo", "fiber", "nestjs",
     "koa", "hapi", "strapi", "graphql", "grpc", "rest api", "soap",
     "microservices", "serverless", "lambda", "api gateway"]),
   ("databases",
    ["mysql", "postgresql", "mongodb", "redis", "elasticsearch", "cassandra",
     "oracle", "sql server", "sqlite", "dynamodb", "firebase", "supabase",
     "couchdb", "neo4j", "influxdb", "timescaledb", "clickhouse", "mariadb",
     "memcached", "etcd", "cockroachdb", "fauna", "arangodb"]),
   ("cloud_devops",
    ["aws", "azure", "gcp", "docker", "kubernetes", "terraform", "ansible",
     "jenkins", "gitlab ci", "github actions", "circleci", "travis ci",
     "prometheus", "grafana", "elk stack", "datadog", "new relic", "nginx",
     "apache", "load balancing", "cdn", "cloudflare", "heroku", "vercel",
     "netlify", "digitalocean", "linode", "vagrant", "puppet", "chef"]),
   ("data_science_ml",
    ["machine learning", "deep learning", "tensorflow", "pytorch", "keras",
     "scikit-learn", "pandas", "numpy", "matplotlib", "seaborn", "plotly",
     "jupyter", "spark", "hadoop", "airflow", "mlflow", "kubeflow",
     "computer vision", "nlp", "opencv", "spacy", "nltk", "transformers",
     "hugging face", "langchain", "vector databases", "pinecone", "weaviate"]),
   ("mobile",
    ["react native", "flutter", "ionic", "xamarin", "swift", "swiftui",
     "kotlin", "android studio", "xcode", "expo", "capacitor", "cordova",
     "native script", "android", "ios", "watchos", "tvos"]),
   ("testing_qa",
    ["jest", "mocha", "cypress", "selenium", "playwright", "puppeteer",
     "junit", "pytest", "unittest", "testng", "jasmine", "karma", "chai",
     "postman", "insomnia", "jmeter", "gatling", "cucumber", "appium"]),
   ("security",
    ["oauth", "jwt", "ssl/tls", "encryption", "penetration testing", "owasp",
     "burp suite", "metasploit", "nmap", "wireshark", "kali linux",
     "cryptography", "zero trust", "siem", "ids/ips", "firewall", "vpn"]),
   ("soft_skills",
    ["agile", "scrum", "kanban", "leadership", "communication", "teamwork",
     "problem solving", "critical thinking", "project management", "jira",
     "confluence", "slack", "microsoft teams", "notion", "asana", "trello"]),
   ("blockchain_web3",
    ["blockchain", "ethereum", "solidity", "web3.js", "ethers.js", "truffle",
     "hardhat", "smart contracts", "defi", "nft", "ipfs", "metamask",
     "polygon", "binance smart chain", "avalanche", "solana", "rust"]),
   ("game_dev",
    ["unity", "unreal engine", "godot", "c++", "c#", "opengl", "directx",
     "vulkan", "webgl", "three.js", "babylon.js", "phaser", "game design"])]

/-- The flattening loop of `_load_skills_database`:
`self.canonical_skills.extend(skills)` for each category. -/
def canonicalSkills : List String :=
  skillsDb.foldl (fun acc cs => acc ++ cs.2) []

/-- The category-map loop of `_load_skills_database`:
`self.skill_categories[skill] = category` for each skill of each
category. -/
def skillCategories : List (String × String) :=
  skillsDb.foldl (fun d cs => cs.2.foldl (fun d skill => dictInsert skill cs.1 d) d) []

/-! ## Fixtures for concrete evaluations -/

/-- A processor with an empty vocabulary (the `EmptyVocabulary` degraded
mode of the spec). -/
def emptyProcessor : DataProcessor :=
  mkDataProcessor [] [] [] []

/-- A matcher over the empty vocabulary. -/
def emptyMatcher : SkillMatcher :=
  mkSkillMatcher emptyProcessor

/-- Oracles that report nothing (all black-box models return empty). -/
def constOracles : Oracles :=
  { fuzzySims := fun _ => [], cosScores := fun _ => [],
    nounChunks := fun _ => [], cuePhrases := fun _ => [] }

/-- The hypothetical vocabulary of the exact-match specificity claim:
both "node" and "node.js" are distinct canonical skills, with no synonym
table. -/
def nodeProcessor : DataProcessor :=
  mkDataProcessor ["node", "node.js"] [] [] []

/-- Matcher over the node vocabulary. -/
def nodeMatcher : SkillMatcher :=
  mkSkillMatcher nodeProcessor

/-- A two-skill vocabulary where "python" has the synonym "py", so the
TF-IDF corpus is ["python", "py", "java"] with owners
["python", "python", "java"]. -/
def fuzzyProcessor : DataProcessor :=
  mkDataProcessor ["python", "java"] [] [("python", ["py"])] []

/-- Matcher over the fuzzy-counterexample vocabulary. -/
def fuzzyMatcher5 : SkillMatcher :=
  mkSkillMatcher fuzzyProcessor

/-- Oracles under which the corpus document "py" (index 1) is a perfect
TF-IDF hit and nothing else matches — exactly the similarity vector the
fitted vectorizer produces for the input text "py". -/
def fuzzyOracles5 : Oracles :=
  { fuzzySims := fun _ => [0, 1, 0], cosScores := fun _ => [],
    nounChunks := fun _ => [], cuePhrases := fun _ => [] }

/-- A one-skill vocabulary used to show the zero-weight-sum error branch
of `hybrid_match` is reachable. -/
def pyProcessor : DataProcessor :=
  mkDataProcessor ["python"] [] [] []

/-- Matcher over the one-skill vocabulary. -/
def pyMatcher : SkillMatcher :=
  mkSkillMatcher pyProcessor

/-! ## Dict lemmas -/

theorem dictLookup_dictInsert_self {β : Type} (k : String) (v : β) :
    ∀ (d : List (String × β)), dictLookup k (dictInsert k v d) = some v
  | [] => by simp [dictInsert, dictLookup]
  | (k', v') :: rest => by
    by_cases h : k' = k
    · simp [dictInsert, dictLookup, h]
    · simp only [dictInsert, if_neg h, dictLookup]
      exact dictLookup_dictInsert_self k v rest

theorem dictLookup_dictInsert_of_ne {β : Type} {q k : String} (v : β)
    (hne : q ≠ k) : ∀ (d : List (String × β)),
      dictLookup q (dictInsert k v d) = dictLookup q d
  | [] => by
    have hkq : ¬ k = q := fun h => hne h.symm
    simp [dictInsert, dictLookup, hkq]
  | (k', v') :: rest => by
    have hkq : ¬ k = q := fun h => hne h.symm
    by_cases h : k' = k
    · subst h
      simp only [dictInsert, if_pos rfl, dictLookup, if_neg hkq]
    · simp only [dictInsert, if_neg h, dictLookup]
      by_cases h2 : k' = q
      · rw [if_pos h2, if_pos h2]
      · rw [if_neg h2, if_neg h2]
        exact dictLookup_dictInsert_of_ne v hne rest

theorem dictLookup_isSome_dictInsert {β : Type} {q k : String} (v : β)
    (d : List (String × β)) (h : (dictLookup q d).isSome = true) :
    (dictLookup q (dictInsert k v d)).isSome = true := by
  by_cases hq : q = k
  · subst hq; rw [dictLookup_dictInsert_self]; rfl
  · rw [dictLookup_dictInsert_of_ne v hq]; exact h

/-! ## Category-map build lemmas -/

theorem lookup_foldl_insert_isSome (cat : String) :
    ∀ (skills : List String) (d : List (String × String)) (s : String),
      (s ∈ skills ∨ (dictLookup s d).isSome = true) →
      (dictLookup s (skills.foldl (fun d sk => dictInsert sk cat d) d)).isSome = true
  | [], d, s, h => by
    rcases h with h | h
    · simp at h
    · simpa using h
  | sk :: skills, d, s, h => by
    rw [List.foldl_cons]
    apply lookup_foldl_insert_isSome cat skills
    rcases h with h | h
    · rcases List.mem_cons.mp h with h | h
      · right; subst h; rw [dictLookup_dictInsert_self]; rfl
      · left; exact h
    · right; exact dictLookup_isSome_dictInsert cat d h

theorem mem_foldl_append {s : String} :
    ∀ (db : List (String × List String)) (acc : List String),
      s ∈ db.foldl (fun acc cs => acc ++ cs.2) acc ↔
        s ∈ acc ∨ ∃ cs ∈ db, s ∈ cs.2 := by
  intro db
  induction db with
  | nil => intro acc; simp
  | cons c db ih =>
    intro acc
    rw [List.foldl_cons, ih]
    simp only [List.mem_append, List.mem_cons]
    constructor
    · rintro ((h | h) | ⟨cs, hcs, hm⟩)
      · left; exact h
      · right; exact ⟨c, Or.inl rfl, h⟩
      · right; exact ⟨cs, Or.inr hcs, hm⟩
    · rintro (h | ⟨cs, (hcs | hcs), hm⟩)
      · left; left; exact h
      · left; right; subst hcs; exact hm
      · right; exact ⟨cs, hcs, hm⟩

theorem lookup_catfold_isSome :
    ∀ (db : List (String × List String)) (d : List (String × String)) (s : String),
      ((∃ cs ∈ db, s ∈ cs.2) ∨ (dictLookup s d).isSome = true) →
      (dictLookup s (db.foldl
        (fun d cs => cs.2.foldl (fun d skill => dictInsert skill cs.1 d) d) d)).isSome
        = true
  | [], d, s, h => by
    rcases h with ⟨cs, hcs, _⟩ | h
    · simp at hcs
    · simpa using h
  | c :: db, d, s, h => by
    rw [List.foldl_cons]
    apply lookup_catfold_isSome db
    rcases h with ⟨cs, hcs, hm⟩ | h
    · rcases List.mem_cons.mp hcs with hc | hc
      · right
        rw [hc] at hm
        exact lookup_foldl_insert_isSome c.1 c.2 d s (Or.inl hm)
      · left; exact ⟨cs, hc, hm⟩
    · right
      exact lookup_foldl_insert_isSome c.1 c.2 d s (Or.inr h)

/-- Every canonical skill of the shipped database has a category in the
category map. -/
theorem skillCategories_covers {s : String} (h : s ∈ canonicalSkills) :
    (dictLookup s skillCategories).isSome = true := by
  apply lookup_catfold_isSome
  left
  exact ((mem_foldl_append skillsDb []).mp h).resolve_left (by simp)

/-! ## Except and fold helper lemmas -/

@[simp] theorem except_pure {A : Type} (x : A) :
    (pure x : Except String A) = Except.ok x := rfl

@[simp] theorem except_bind_ok {A B : Type} (x : A) (f : A → Except String B) :
    (Except.ok x >>= f) = f x := rfl

@[simp] theorem except_bind_error {A B : Type} (e : String) (f : A → Except String B) :
    ((Except.error e : Except String A) >>= f) = Except.error e := rfl

theorem foldl_congr_id {α β : Type} (f : α → β → α) (hf : ∀ a b, f a b = a) :
    ∀ (l : List β) (a : α), l.foldl f a = a
  | [], _ => rfl
  | b :: l, a => by rw [List.foldl_cons, hf]; exact foldl_congr_id f hf l a

theorem bind_pure_ok {A B : Type} (e : Except String A) (k : A → Except String B)
    (hk : ∀ x, ∃ y, k x = Except.ok y) (he : ∃ x, e = Except.ok x) :
    ∃ r, (e >>= k) = Except.ok r := by
  obtain ⟨x, rfl⟩ := he
  obtain ⟨y, hy⟩ := hk x
  exact ⟨y, by simpa using hy⟩

/-- The normalization loop succeeds whenever the divisor is nonzero. -/
theorem normalizeScores_ok {s : ℚ} (hs : s ≠ 0) :
    ∀ (l : List (String × AggEntry)), ∃ res, normalizeScores s l = Except.ok res
  | [] => ⟨[], rfl⟩
  | e :: rest => by
    obtain ⟨res, hres⟩ := normalizeScores_ok hs rest
    refine ⟨(min 1 (e.2.confidence / s), e.2) :: res, ?_⟩
    simp [normalizeScores, pydiv, hs, hres]

/-- Every pair produced by the normalization loop carries a clamped
confidence. -/
theorem normalizeScores_mem_form :
    ∀ (l : List (String × AggEntry)) {s : ℚ} {res : List (ℚ × AggEntry)},
      normalizeScores s l = Except.ok res →
      ∀ p ∈ res, ∃ q, p.1 = min 1 q
  | [], s, res, h, p, hp => by
    simp only [normalizeScores, Except.ok.injEq] at h
    subst h; simp at hp
  | e :: rest, s, res, h, p, hp => by
    simp only [normalizeScores] at h
    cases hdiv : pydiv e.2.confidence s with
    | error msg => rw [hdiv] at h; simp at h
    | ok q =>
      rw [hdiv] at h
      cases htail : normalizeScores s rest with
      | error msg => rw [htail] at h; simp at h
      | ok tail =>
        rw [htail] at h
        simp only [except_bind_ok] at h
        have h' : (min 1 q, e.2) :: tail = res := by
          have := h
          simp only [pure, Except.pure, Except.ok.injEq] at this
          exact this
        subst h'
        rcases List.mem_cons.mp hp with hp | hp
        · exact ⟨q, by rw [hp]⟩
        · exact normalizeScores_mem_form rest htail p hp

/-- `hybrid_match` succeeds whenever the configured weights sum to a
nonzero value. -/
theorem hybridMatch_eq_ok (m : SkillMatcher) (o : Oracles) (text : String)
    (w : Option (List (String × ℚ)))
    (h : weightValuesSum (w.getD defaultStrategyWeights) ≠ 0) :
    ∃ r, hybridMatch m o text w = Except.ok r := by
  unfold hybridMatch
  exact bind_pure_ok _ _ (fun x => ⟨_, rfl⟩) (normalizeScores_ok h _)

/-- Inversion principle for a successful `hybrid_match`. -/
theorem hybridMatch_ok_iff (m : SkillMatcher) (o : Oracles) (text : String)
    (w : Option (List (String × ℚ))) (r : List SkillMatch) :
    hybridMatch m o text w = Except.ok r ↔
      ∃ res, normalizeScores (weightValuesSum (w.getD defaultStrategyWeights))
          (hybridAgg m o text (w.getD defaultStrategyWeights)) = Except.ok res ∧
        r = hybridFinalize m.config res := by
  simp only [hybridMatch]
  cases hns : normalizeScores (weightValuesSum (w.getD defaultStrategyWeights))
      (hybridAgg m o text (w.getD defaultStrategyWeights)) with
  | error e =>
    simp only [except_bind_error]
    constructor
    · intro h; exact absurd h (by simp)
    · rintro ⟨res, hres, _⟩; exact absurd hres (by simp)
  | ok res0 =>
    simp only [except_bind_ok, except_pure, Except.ok.injEq]
    constructor
    · intro h; exact ⟨res0, rfl, h.symm⟩
    · rintro ⟨res, hres, hr⟩
      rw [hres, hr]

/-- Every match surviving `hybridFinalize` is clamped and floored. -/
theorem hybridFinalize_mem_bounds (cfg : MatcherConfig)
    (res : List (ℚ × AggEntry)) (hform : ∀ p ∈ res, ∃ q, p.1 = min 1 q) :
    ∀ mt ∈ hybridFinalize cfg res,
      cfg.min_confidence ≤ mt.confidence ∧ mt.confidence ≤ 1 := by
  intro mt hmt
  simp only [hybridFinalize] at hmt
  rw [mem_stableSort] at hmt
  rcases List.mem_map.mp hmt with ⟨pp, hpf, hmk⟩
  rcases List.mem_filter.mp hpf with ⟨hpres, hpcond⟩
  rw [decide_eq_true_eq] at hpcond
  obtain ⟨q, hq⟩ := hform pp hpres
  constructor
  · rw [← hmk]; exact hpcond
  · rw [← hmk]
    show pp.1 ≤ 1
    rw [hq]
    exact min_le_left _ _

/-- The `hybridFinalize` output is sorted by descending confidence. -/
theorem hybridFinalize_sorted (cfg : MatcherConfig)
    (res : List (ℚ × AggEntry)) :
    List.Pairwise (fun a b : SkillMatch => b.confidence ≤ a.confidence)
      (hybridFinalize cfg res) := by
  simp only [hybridFinalize]
  have hp := pairwise_stableSort
    (fun a b : SkillMatch => decide (b.confidence ≤ a.confidence))
    (fun a b c hab hbc => by
      rw [decide_eq_true_eq] at hab hbc ⊢
      exact le_trans hbc hab)
    (fun a b => by
      rcases le_total b.confidence a.confidence with h | h
      · left; rw [decide_eq_true_eq]; exact h
      · right; rw [decide_eq_true_eq]; exact h)
    ((res.filter (fun p => decide (cfg.min_confidence ≤ p.1))).map
      (fun p =>
        ({ skill := p.2.skill, confidence := p.1,
           method := String.intercalate "+" p.2.methods.dedup,
           context := if p.2.contexts.isEmpty then none
                      else some (String.intercalate "; " (p.2.contexts.take 2)),
           category := p.2.category } : SkillMatch)))
  exact hp.imp (fun h => by rwa [decide_eq_true_eq] at h)

/-- `match_skills` under the default hybrid strategy always succeeds and
returns the alphabetically sorted set of hybrid skill names. -/
theorem matchSkills_hybrid_eq (m : SkillMatcher) (o : Oracles) (text : String) :
    ∃ ms, hybridMatch m o text none = Except.ok ms ∧
      matchSkills m o text MatchingStrategy.HYBRID =
        Except.ok (Finset.sort (α := String) (· ≤ ·)
          ((ms.map (fun mt => mt.skill)).toFinset)) := by
  obtain ⟨ms, hms⟩ := hybridMatch_eq_ok m o text none
    (by norm_num [Option.getD, weightValuesSum, defaultStrategyWeights])
  refine ⟨ms, hms, ?_⟩
  simp only [matchSkills, hms, except_bind_ok, except_pure]

/-- Unfolding a successful non-detailed `analyze_skill_gap`. -/
theorem analyzeSkillGap_eq (m : SkillMatcher) (o : Oracles) (rt jt : String)
    (SR SJ : List String)
    (hR : matchSkills m o rt MatchingStrategy.HYBRID = Except.ok SR)
    (hJ : matchSkills m o jt MatchingStrategy.HYBRID = Except.ok SJ) :
    analyzeSkillGap m o rt jt = Except.ok
      { matched_skills := sortedSkillList (SR.toFinset ∩ SJ.toFinset),
        missing_skills := sortedSkillList (SJ.toFinset \ SR.toFinset),
        additional_skills := sortedSkillList (SR.toFinset \ SJ.toFinset),
        match_percentage :=
          if SJ.toFinset = ∅ then 0
          else pyRound2 (((SR.toFinset ∩ SJ.toFinset).card : ℚ) /
            (SJ.toFinset.card : ℚ) * 100),
        total_job_skills := SJ.toFinset.card,
        total_resume_skills := SR.toFinset.card } := by
  simp only [analyzeSkillGap, hR, hJ, except_bind_ok, except_pure]

/-! ## Claim theorems -/

/-- C6: text normalization is idempotent — for every string `s`,
`normalize(normalize(s)) = normalize(s)`; and empty or null input yields
the empty string. -/
theorem C6_normalize_idempotent :
    (∀ s : String, normalizeText (normalizeText s) = normalizeText s) ∧
    normalizeText "" = "" ∧ normalizeTextOpt none = "" :=
  ⟨normalizeText_fix, rfl, rfl⟩

/-- C8: resolving a strategy name outside {exact, fuzzy, semantic,
contextual, hybrid} fails with the `ValueError` of the
`MatchingStrategy` enum constructor, surfaced to the caller; no list of
matches is ever produced by silently defaulting the name to another
strategy. -/
theorem C8_invalid_strategy (name : String)
    (h : pyStrLower name ∉
      (["exact", "fuzzy", "semantic", "hybrid", "contextual"] : List String)) :
    ∀ (m : SkillMatcher) (o : Oracles) (text : String),
      matchSkillsByName m o text name =
        Except.error "ValueError: not a valid MatchingStrategy" := by
  intro m o text
  simp only [List.mem_cons, List.not_mem_nil, or_false, not_or] at h
  obtain ⟨h1, h2, h3, h4, h5⟩ := h
  simp [matchSkillsByName, pyParseStrategy, h1, h2, h3, h4, h5]

/-- Witness for C8 at the concrete unrecognized name "bogus". -/
theorem C8_invalid_strategy_witness :
    pyStrLower "bogus" ∉
      (["exact", "fuzzy", "semantic", "hybrid", "contextual"] : List String) ∧
    matchSkillsByName emptyMatcher constOracles "" "bogus" =
      Except.error "ValueError: not a valid MatchingStrategy" :=
  ⟨by decide, C8_invalid_strategy "bogus" (by decide) emptyMatcher constOracles ""⟩

set_option maxRecDepth 40000 in
/-- C9 counterexample: the canonical skill list of the shipped database is
not duplicate-free — "rust" is listed both under programming_languages and
under blockchain_web3, so it occurs twice. -/
theorem C9_counterexample : ¬ canonicalSkills.Nodup := by
  intro h
  have hcount := (List.nodup_iff_count_le_one.mp h) "rust"
  have h2 : canonicalSkills.count "rust" = 2 := by decide
  omega

set_option maxRecDepth 40000 in
/-- C9 amended: every canonical skill is a lowercase identifier and has
exactly one category under the category lookup (the canonical list itself
may contain duplicates, as the counterexample shows). -/
theorem C9_categories_unique (s : String) (h : s ∈ canonicalSkills) :
    pyStrLower s = s ∧ ∃! c : String, dictLookup s skillCategories = some c := by
  constructor
  · have hall : ∀ x ∈ canonicalSkills, pyStrLower x = x := by decide
    exact hall s h
  · have hsome := skillCategories_covers h
    obtain ⟨c, hc⟩ := Option.isSome_iff_exists.mp hsome
    exact ⟨c, hc, fun y hy => Option.some_inj.mp (hy.symm.trans hc)⟩

set_option maxRecDepth 40000 in
/-- Witness for C9's amended theorem at the concrete skill "python". -/
theorem C9_categories_unique_witness :
    "python" ∈ canonicalSkills ∧
    (pyStrLower "python" = "python" ∧
      ∃! c : String, dictLookup "python" skillCategories = some c) :=
  ⟨by decide, C9_categories_unique "python" (by decide)⟩

/-- C7: with an empty vocabulary every strategy — exact, fuzzy, semantic,
contextual, and hybrid — returns the empty list for every input text and
every oracle behaviour, and the fallible hybrid path returns `ok` rather
than an error (the embedding of the remaining strategies is total by
construction, matching the raise-free source paths). -/
theorem C7_empty_vocabulary (o : Oracles) (text : String) :
    exactMatch emptyMatcher text = [] ∧
    fuzzyMatch emptyMatcher o text = [] ∧
    semanticMatch emptyMatcher o text 10 = [] ∧
    contextualMatch emptyMatcher o text = [] ∧
    hybridMatch emptyMatcher o text none = Except.ok [] ∧
    matchSkills emptyMatcher o text MatchingStrategy.EXACT = Except.ok [] ∧
    matchSkills emptyMatcher o text MatchingStrategy.FUZZY = Except.ok [] ∧
    matchSkills emptyMatcher o text MatchingStrategy.SEMANTIC = Except.ok [] ∧
    matchSkills emptyMatcher o text MatchingStrategy.CONTEXTUAL = Except.ok [] ∧
    matchSkills emptyMatcher o text MatchingStrategy.HYBRID = Except.ok [] := by
  have hex : exactMatch emptyMatcher text = [] := rfl
  have hfz : fuzzyMatch emptyMatcher o text = [] := rfl
  have hsm : semanticMatch emptyMatcher o text 10 = [] := rfl
  have hctx : contextualMatch emptyMatcher o text = [] := by
    unfold contextualMatch
    have hcs : emptyMatcher.processor.canonical_skills = [] := rfl
    simp only [hcs, List.foldl_nil]
    rw [foldl_congr_id _ (fun a b => rfl)]
    rfl
  have hagg : hybridAgg emptyMatcher o text defaultStrategyWeights = [] := by
    unfold hybridAgg
    simp only [hex, hfz, hsm, hctx, List.foldl_cons, List.foldl_nil]
  have hhyb : hybridMatch emptyMatcher o text none = Except.ok [] := by
    unfold hybridMatch
    simp only [Option.getD_none, hagg]
    rfl
  have hms : ∀ st : MatchingStrategy,
      matchSkills emptyMatcher o text st = Except.ok [] := by
    intro st
    cases st <;>
      simp only [matchSkills, hex, hfz, hsm, hctx, hhyb, except_pure,
        except_bind_ok, List.map_nil, List.toFinset_nil, Finset.sort_empty]
  exact ⟨hex, hfz, hsm, hctx, hhyb, hms MatchingStrategy.EXACT,
    hms MatchingStrategy.FUZZY, hms MatchingStrategy.SEMANTIC,
    hms MatchingStrategy.CONTEXTUAL, hms MatchingStrategy.HYBRID⟩

/-- C10: `hybrid_match` returns without raising whenever the supplied
weights are `None` or sum to a positive number; and with a caller-supplied
weights mapping summing to zero (the empty mapping) the unguarded division
raises `ZeroDivisionError` as soon as any strategy returns a match. -/
theorem C10_hybrid_totality :
    (∀ (m : SkillMatcher) (o : Oracles) (text : String)
        (w : Option (List (String × ℚ))),
        (w = none ∨ ∃ l, w = some l ∧ 0 < weightValuesSum l) →
        ∃ r, hybridMatch m o text w = Except.ok r) ∧
    hybridMatch pyMatcher constOracles "python" (some []) =
      Except.error "ZeroDivisionError" := by
  constructor
  · intro m o text w hw
    apply hybridMatch_eq_ok
    rcases hw with rfl | ⟨l, rfl, hl⟩
    · norm_num [Option.getD, defaultStrategyWeights, weightValuesSum]
    · simpa using ne_of_gt hl
  · rfl

/-- Witness for C10's universally quantified part, at default weights over
the empty vocabulary. -/
theorem C10_hybrid_totality_witness :
    ∃ r, hybridMatch emptyMatcher constOracles "" none = Except.ok r :=
  C10_hybrid_totality.1 emptyMatcher constOracles "" none (Or.inl rfl)

/-- C3: every match returned by a successful `hybrid_match` over a
freshly initialized matcher (default config, minimum-confidence floor 0.3)
has confidence in [0, 1]; survivors are at or above the 0.3 floor and the
result is sorted by descending confidence.  The aggregation, weight-sum
normalization and clamping are the definitions `hybridAgg`,
`normalizeScores` and `hybridFinalize` the statement quantifies over. -/
theorem C3_hybrid_confidence_bounded (p : DataProcessor) (o : Oracles)
    (text : String) (w : Option (List (String × ℚ))) (r : List SkillMatch)
    (h : hybridMatch (mkSkillMatcher p) o text w = Except.ok r) :
    (∀ mt ∈ r, 0 ≤ mt.confidence ∧ mt.confidence ≤ 1 ∧
      (3 : ℚ)/10 ≤ mt.confidence) ∧
    List.Pairwise (fun a b : SkillMatch => b.confidence ≤ a.confidence) r := by
  obtain ⟨res, hres, hr⟩ := (hybridMatch_ok_iff _ _ _ _ _).mp h
  have hform := normalizeScores_mem_form _ hres
  have hcfg : (mkSkillMatcher p).config.min_confidence = (3 : ℚ)/10 := rfl
  constructor
  · intro mt hmt
    rw [hr] at hmt
    have hb := hybridFinalize_mem_bounds _ _ hform mt hmt
    rw [hcfg] at hb
    exact ⟨le_trans (by norm_num) hb.1, hb.2, hb.1⟩
  · rw [hr]
    exact hybridFinalize_sorted _ _

/-- Witness for C3 at a concrete successful hybrid run (empty vocabulary,
default weights). -/
theorem C3_hybrid_confidence_bounded_witness :
    hybridMatch (mkSkillMatcher emptyProcessor) constOracles "" none =
      Except.ok [] ∧
    ((∀ mt ∈ ([] : List SkillMatch), 0 ≤ mt.confidence ∧ mt.confidence ≤ 1 ∧
        (3 : ℚ)/10 ≤ mt.confidence) ∧
      List.Pairwise (fun a b : SkillMatch => b.confidence ≤ a.confidence)
        ([] : List SkillMatch)) := by
  have hok : hybridMatch (mkSkillMatcher emptyProcessor) constOracles "" none =
      Except.ok [] := rfl
  exact ⟨hok, C3_hybrid_confidence_bounded emptyProcessor constOracles "" none [] hok⟩

/-- `sorted(list(s))` has as many elements as the set `s`. -/
theorem length_sortedSkillList (s : Finset String) :
    (sortedSkillList s).length = s.card :=
  Finset.length_sort _

/-- C2: under the hybrid strategy and a fixed vocabulary and oracle state,
non-detailed `analyze_skill_gap` computes matched as intersection, missing
as target minus source, additional as source minus target — each an
alphabetically sorted list — and consequently
`missing(A,B) = additional(B,A)` and `matched(A,B) = matched(B,A)`. -/
theorem C2_gap_set_symmetry (m : SkillMatcher) (o : Oracles) (A B : String) :
    ∃ (SA SB : List String) (rAB rBA : GapReport),
      matchSkills m o A MatchingStrategy.HYBRID = Except.ok SA ∧
      matchSkills m o B MatchingStrategy.HYBRID = Except.ok SB ∧
      analyzeSkillGap m o A B = Except.ok rAB ∧
      analyzeSkillGap m o B A = Except.ok rBA ∧
      rAB.matched_skills = sortedSkillList (SA.toFinset ∩ SB.toFinset) ∧
      rAB.missing_skills = sortedSkillList (SB.toFinset \ SA.toFinset) ∧
      rAB.additional_skills = sortedSkillList (SA.toFinset \ SB.toFinset) ∧
      List.Sorted (· ≤ ·) (sortedSkillList (SA.toFinset ∩ SB.toFinset)) ∧
      List.Sorted (· ≤ ·) (sortedSkillList (SB.toFinset \ SA.toFinset)) ∧
      List.Sorted (· ≤ ·) (sortedSkillList (SA.toFinset \ SB.toFinset)) ∧
      rAB.missing_skills = rBA.additional_skills ∧
      rAB.matched_skills = rBA.matched_skills := by
  obtain ⟨msA, _, hSA⟩ := matchSkills_hybrid_eq m o A
  obtain ⟨msB, _, hSB⟩ := matchSkills_hybrid_eq m o B
  have hAB := analyzeSkillGap_eq m o A B _ _ hSA hSB
  have hBA := analyzeSkillGap_eq m o B A _ _ hSB hSA
  refine ⟨_, _, _, _, hSA, hSB, hAB, hBA, rfl, rfl, rfl, ?_, ?_, ?_, rfl, ?_⟩
  · apply Finset.sort_sorted
  · apply Finset.sort_sorted
  · apply Finset.sort_sorted
  · simp only []
    rw [Finset.inter_comm]

/-- Analogue of `analyzeSkillGap_eq` for the detailed mode: the report
succeeds and its match percentage is the guarded rounded ratio of its own
matched count to its own target count. -/
theorem analyzeSkillGapDetailed_mp (m : SkillMatcher) (o : Oracles)
    (A B : String) (MA MB : List SkillMatch)
    (hA : hybridMatch m o A none = Except.ok MA)
    (hB : hybridMatch m o B none = Except.ok MB) :
    ∃ rd, analyzeSkillGapDetailed m o A B = Except.ok rd ∧
      rd.match_percentage = (if rd.total_job_skills = 0 then 0
        else pyRound2 ((rd.matched_skills.length : ℚ) /
          (rd.total_job_skills : ℚ) * 100)) ∧
      (rd.total_job_skills = 0 → rd.match_percentage = 0) := by
  have hA' : matchSkillsDetailed m o A MatchingStrategy.HYBRID = Except.ok MA := hA
  have hB' : matchSkillsDetailed m o B MatchingStrategy.HYBRID = Except.ok MB := hB
  have hok : analyzeSkillGapDetailed m o A B =
      Except.ok (detailedGapFrom m MA MB) := by
    simp only [analyzeSkillGapDetailed, hA', hB', except_bind_ok, except_pure]
  refine ⟨detailedGapFrom m MA MB, hok, ?_, ?_⟩
  all_goals
    simp only [detailedGapFrom]
  all_goals
    generalize (MB.foldl (fun d mt => dictInsert mt.skill mt d)
      ([] : List (String × SkillMatch))) = JD
  · by_cases hj : JD = []
    · subst hj; simp
    · have h1 : JD.isEmpty = false := by
        rw [← Bool.not_eq_true, List.isEmpty_iff]; exact hj
      have h2 : ¬ JD.length = 0 := by
        rw [List.length_eq_zero]; exact hj
      rw [h1, if_neg h2]
      simp
  · intro h0
    have hj : JD = [] := List.length_eq_zero.mp h0
    subst hj; simp

/-- C1: `analyze_skill_gap` never raises, and in both modes returns
`match_percentage = round(matched count / target count * 100, 2)` with the
empty-target case guarded to 0 rather than raising a division error. -/
theorem C1_match_percentage (m : SkillMatcher) (o : Oracles) (A B : String) :
    ∃ (r : GapReport) (rd : DetailedGapReport),
      analyzeSkillGap m o A B = Except.ok r ∧
      r.match_percentage = (if r.total_job_skills = 0 then 0
        else pyRound2 ((r.matched_skills.length : ℚ) /
          (r.total_job_skills : ℚ) * 100)) ∧
      (r.total_job_skills = 0 → r.match_percentage = 0) ∧
      analyzeSkillGapDetailed m o A B = Except.ok rd ∧
      rd.match_percentage = (if rd.total_job_skills = 0 then 0
        else pyRound2 ((rd.matched_skills.length : ℚ) /
          (rd.total_job_skills : ℚ) * 100)) ∧
      (rd.total_job_skills = 0 → rd.match_percentage = 0) := by
  obtain ⟨msA, hmsA, hSA⟩ := matchSkills_hybrid_eq m o A
  obtain ⟨msB, hmsB, hSB⟩ := matchSkills_hybrid_eq m o B
  obtain ⟨rd, hrd, hrdmp, hrd0⟩ := analyzeSkillGapDetailed_mp m o A B msA msB hmsA hmsB
  refine ⟨_, rd, analyzeSkillGap_eq m o A B _ _ hSA hSB, ?_, ?_, hrd, hrdmp, hrd0⟩
  · show (if _ = ∅ then (0 : ℚ) else _) = _
    by_cases hj : (Finset.sort (α := String) (· ≤ ·)
        ((msB.map (fun mt => mt.skill)).toFinset)).toFinset = ∅
    · rw [if_pos hj]
      have : ((Finset.sort (α := String) (· ≤ ·)
          ((msB.map (fun mt => mt.skill)).toFinset)).toFinset).card = 0 :=
        Finset.card_eq_zero.mpr hj
      rw [this]
      simp
    · rw [if_neg hj]
      have hc : ((Finset.sort (α := String) (· ≤ ·)
          ((msB.map (fun mt => mt.skill)).toFinset)).toFinset).card ≠ 0 :=
        fun h => hj (Finset.card_eq_zero.mp h)
      rw [if_neg hc]
      simp only [length_sortedSkillList]
  · intro h0
    show (if _ = ∅ then (0 : ℚ) else _) = 0
    rw [if_pos (Finset.card_eq_zero.mp h0)]

/-- `reSearch` succeeds exactly when the pattern matches at some
position. -/
theorem reSearch_true_iff (v t : List Char) :
    reSearch v t = true ↔ ∃ i, i < t.length + 1 ∧ matchesAt v t i = true := by
  simp [reSearch, List.any_eq_true, List.mem_range]

/-- A word-boundary match of "node.js" is also a word-boundary match of
"node" at the same position: the left boundary is shared, and the dot
after "node" is a non-word character, so the boundary after "node" holds
as well. -/
theorem matchesAt_node_of_nodejs {t : List Char} {i : Nat}
    (h : matchesAt "node.js".data t i = true) :
    matchesAt "node".data t i = true := by
  simp only [matchesAt, Bool.and_eq_true, decide_eq_true_eq] at h ⊢
  obtain ⟨⟨htake, hb0⟩, _⟩ := h
  rw [show ("node.js".data).length = 7 from rfl] at htake
  have hdecomp : t.drop i = "node.js".data ++ (t.drop i).drop 7 := by
    conv_lhs => rw [← List.take_append_drop 7 (t.drop i)]
    rw [htake]
  refine ⟨⟨?_, hb0⟩, ?_⟩
  · rw [show ("node".data).length = 4 from rfl]
    rw [hdecomp]
    rfl
  · rw [show ("node".data).length = 4 from rfl]
    have h3 : t.get? (i + 3) = some 'e' := by
      rw [← List.get?_drop, hdecomp]; rfl
    have h4 : t.get? (i + 4) = some '.' := by
      rw [← List.get?_drop, hdecomp]; rfl
    simp only [boundaryAt, wordAt]
    rw [if_neg (by omega : ¬ (i + 4 = 0))]
    rw [show i + 4 - 1 = i + 3 from by omega]
    rw [h3, h4]
    rfl

/-- C4 amended: over the claim's hypothetical vocabulary (both "node" and
"node.js" canonical), any text whose normalization contains a
word-boundary occurrence of "node.js" makes `exact_match` report
"node.js" first (longest variant first) and then *also* report "node" —
the word-boundary pattern for "node" matches inside "node.js" because the
dot is a non-word character, and deduplication is per canonical skill
only. -/
theorem C4_exact_specificity (text : String)
    (h : reSearch "node.js".data (normalizeText text).data = true) :
    (exactMatch nodeMatcher text).map (fun mt => mt.skill) =
      ["node.js", "node"] := by
  obtain ⟨i, hi, hmi⟩ := (reSearch_true_iff _ _).mp h
  have hnode : matchesAt "node".data (normalizeText text).data i = true :=
    matchesAt_node_of_nodejs hmi
  have hsearch2 : reSearch "node".data (normalizeText text).data = true :=
    (reSearch_true_iff _ _).mpr ⟨i, hi, hnode⟩
  have hsv : nodeMatcher.processor.sorted_variants = ["node.js", "node"] := rfl
  have hl1 : (dictLookup "node.js" nodeMatcher.processor.variant_to_canonical).getD ""
      = "node.js" := rfl
  have hl2 : (dictLookup "node" nodeMatcher.processor.variant_to_canonical).getD ""
      = "node" := rfl
  have hne : (("node.js" : String) == "node") = false := rfl
  simp only [exactMatch, hsv, List.foldl_cons, List.foldl_nil, h, hsearch2,
    if_true, List.any_nil, List.any_cons, List.nil_append, Bool.or_false,
    hl1, hl2, hne, Bool.false_eq_true, if_false, List.singleton_append,
    List.map_cons, List.map_nil]

/-- Witness for C4's amended theorem at the text "node.js" itself. -/
theorem C4_exact_specificity_witness :
    reSearch "node.js".data (normalizeText "node.js").data = true ∧
    (exactMatch nodeMatcher "node.js").map (fun mt => mt.skill) =
      ["node.js", "node"] :=
  ⟨by decide, C4_exact_specificity "node.js" (by decide)⟩

/-- C4 counterexample: with both "node" and "node.js" canonical and the
input "node.js" (no standalone "node"), `exact_match` *does* report the
canonical skill "node", contradicting the claim. -/
theorem C4_counterexample :
    "node" ∈ (exactMatch nodeMatcher "node.js").map (fun mt => mt.skill) := by
  decide

/-- Invariant of the `fuzzy_match` fold, strengthened to capture the
per-skill deduplication: processing the remaining hit indices `idxs`
after `done` (all hit indices ascending), the accumulator holds pairwise
skill-distinct matches, its skills are exactly the skills of the
processed hits, and every match carries the similarity of the *first*
hit index resolving to its skill. -/
theorem fuzzyStep_fold_firstwins (m : SkillMatcher) (sims : List ℚ) :
    ∀ (idxs done : List Nat) (acc : List SkillMatch),
      List.Pairwise (fun a b => a < b) (done ++ idxs) →
      (∀ s : String, (∃ mt ∈ acc, mt.skill = s) ↔
        ∃ j ∈ done, m.processor.canonical_skills.getD
          (j % m.processor.canonical_skills.length) "" = s) →
      (∀ mt ∈ acc, ∃ idx ∈ done,
        mt.skill = m.processor.canonical_skills.getD
          (idx % m.processor.canonical_skills.length) "" ∧
        mt.confidence = sims.getD idx 0 ∧
        ∀ j ∈ done ++ idxs, j < idx →
          m.processor.canonical_skills.getD
            (j % m.processor.canonical_skills.length) "" ≠ mt.skill) →
      List.Pairwise (fun a b : SkillMatch => a.skill ≠ b.skill) acc →
      List.Pairwise (fun a b : SkillMatch => a.skill ≠ b.skill)
        (idxs.foldl (fuzzyStep m sims) acc) ∧
      ∀ mt ∈ idxs.foldl (fuzzyStep m sims) acc, ∃ idx ∈ done ++ idxs,
        mt.skill = m.processor.canonical_skills.getD
          (idx % m.processor.canonical_skills.length) "" ∧
        mt.confidence = sims.getD idx 0 ∧
        ∀ j ∈ done ++ idxs, j < idx →
          m.processor.canonical_skills.getD
            (j % m.processor.canonical_skills.length) "" ≠ mt.skill
  | [], done, acc, _, _, hgood, hdist => by
    rw [List.foldl_nil]
    simp only [List.append_nil] at hgood ⊢
    exact ⟨hdist, hgood⟩
  | i :: rest, done, acc, hsort, hskills, hgood, hdist => by
    have hsort' : List.Pairwise (fun a b => a < b) ((done ++ [i]) ++ rest) := by
      rw [← List.append_cons]
      exact hsort
    have hdone_lt : ∀ j ∈ done, j < i := by
      have h := (List.pairwise_append.mp hsort).2.2
      exact fun j hj => h j hj i (List.mem_cons_self i rest)
    have hi_lt_rest : ∀ j ∈ rest, i < j := by
      have h := (List.pairwise_append.mp hsort).2.1
      exact (List.pairwise_cons.mp h).1
    rw [List.foldl_cons, List.append_cons]
    by_cases hc : (acc.any (fun mt2 => mt2.skill ==
        m.processor.canonical_skills.getD
          (i % m.processor.canonical_skills.length) "")) = true
    · have hstep : fuzzyStep m sims acc i = acc := by
        simp only [fuzzyStep]
        rw [if_pos hc]
      rw [hstep]
      refine fuzzyStep_fold_firstwins m sims rest (done ++ [i]) acc hsort'
        ?_ ?_ hdist
      · intro s
        constructor
        · intro hex
          obtain ⟨j, hj, hjs⟩ := (hskills s).mp hex
          exact ⟨j, List.mem_append_left _ hj, hjs⟩
        · rintro ⟨j, hj, hjs⟩
          rcases List.mem_append.mp hj with hj | hj
          · exact (hskills s).mpr ⟨j, hj, hjs⟩
          · have hji : j = i := by simpa using hj
            subst hji
            obtain ⟨mt, hmt, hmts⟩ := List.any_eq_true.mp hc
            rw [beq_iff_eq] at hmts
            exact ⟨mt, hmt, hmts.trans hjs⟩
      · intro mt hmt
        obtain ⟨idx, hidxd, h1, h2, h3⟩ := hgood mt hmt
        refine ⟨idx, List.mem_append_left _ hidxd, h1, h2, ?_⟩
        intro j hj hlt
        refine h3 j ?_ hlt
        rw [List.append_cons]
        exact hj
    · have hstep : fuzzyStep m sims acc i = acc ++
          [{ skill := m.processor.canonical_skills.getD
               (i % m.processor.canonical_skills.length) "",
             confidence := sims.getD i 0,
             method := "fuzzy",
             context := none,
             category := some (getSkillCategory m.processor
               (m.processor.canonical_skills.getD
                 (i % m.processor.canonical_skills.length) "")) }] := by
        simp only [fuzzyStep]
        rw [if_neg hc]
      rw [hstep]
      refine fuzzyStep_fold_firstwins m sims rest (done ++ [i]) _ hsort'
        ?_ ?_ ?_
      · intro s
        constructor
        · rintro ⟨mt, hmt, hmts⟩
          rcases List.mem_append.mp hmt with hmem | hmem
          · obtain ⟨j, hj, hjs⟩ := (hskills s).mp ⟨mt, hmem, hmts⟩
            exact ⟨j, List.mem_append_left _ hj, hjs⟩
          · have hmteq := List.mem_singleton.mp hmem
            refine ⟨i, List.mem_append_right _ (List.mem_singleton.mpr rfl), ?_⟩
            rw [← hmts, hmteq]
        · rintro ⟨j, hj, hjs⟩
          rcases List.mem_append.mp hj with hj | hj
          · obtain ⟨mt, hmt, hmts⟩ := (hskills s).mpr ⟨j, hj, hjs⟩
            exact ⟨mt, List.mem_append_left _ hmt, hmts⟩
          · have hji : j = i := by simpa using hj
            subst hji
            exact ⟨_, List.mem_append_right _ (List.mem_singleton.mpr rfl), hjs⟩
      · intro mt hmt
        rcases List.mem_append.mp hmt with hmem | hmem
        · obtain ⟨idx, hidxd, h1, h2, h3⟩ := hgood mt hmem
          refine ⟨idx, List.mem_append_left _ hidxd, h1, h2, ?_⟩
          intro j hj hlt
          refine h3 j ?_ hlt
          rw [List.append_cons]
          exact hj
        · have hmteq := List.mem_singleton.mp hmem
          subst hmteq
          refine ⟨i, List.mem_append_right _ (List.mem_singleton.mpr rfl),
            rfl, rfl, ?_⟩
          intro j hj hlt heq
          rcases List.mem_append.mp hj with hj | hj
          · rcases List.mem_append.mp hj with hj | hj
            · have : ∃ mt2 ∈ acc, mt2.skill =
                  m.processor.canonical_skills.getD
                    (j % m.processor.canonical_skills.length) "" :=
                (hskills _).mpr ⟨j, hj, rfl⟩
              obtain ⟨mt2, hmt2, hmt2s⟩ := this
              refine hc (List.any_eq_true.mpr ⟨mt2, hmt2, ?_⟩)
              rw [beq_iff_eq, hmt2s]
              exact heq
            · have hji : j = i := by simpa using hj
              subst hji
              exact absurd hlt (lt_irrefl j)
          · exact absurd hlt (not_lt_of_gt (hi_lt_rest j hj))
      · rw [List.pairwise_append]
        refine ⟨hdist, by simp, ?_⟩
        intro a ha b hb
        have hbeq := List.mem_singleton.mp hb
        rw [hbeq]
        intro heq
        refine hc (List.any_eq_true.mpr ⟨a, ha, ?_⟩)
        rw [beq_iff_eq]
        exact heq

/-- C5 amended: every `fuzzy_match` result comes from a corpus-document
index at or above the fuzzy threshold, is mapped back to a canonical skill
by `idx % len(canonical_skills)` (which need not be the skill owning that
document), keeps the hit's cosine similarity as its confidence, and
duplicate hits for the same skill keep only the first encountered: the
returned skills are pairwise distinct and each match's index is the
earliest above-threshold index resolving to its skill. -/
theorem C5_fuzzy_modulo (m : SkillMatcher) (o : Oracles) (text : String) :
    List.Pairwise (fun a b : SkillMatch => a.skill ≠ b.skill)
      (fuzzyMatch m o text) ∧
    ∀ mt ∈ fuzzyMatch m o text,
      ∃ idx, idx < (o.fuzzySims (normalizeText text)).length ∧
        m.config.fuzzy_threshold ≤ (o.fuzzySims (normalizeText text)).getD idx 0 ∧
        mt.skill = m.processor.canonical_skills.getD
          (idx % m.processor.canonical_skills.length) "" ∧
        mt.confidence = (o.fuzzySims (normalizeText text)).getD idx 0 ∧
        ∀ j, j < idx →
          m.config.fuzzy_threshold ≤ (o.fuzzySims (normalizeText text)).getD j 0 →
          m.processor.canonical_skills.getD
            (j % m.processor.canonical_skills.length) "" ≠ mt.skill := by
  unfold fuzzyMatch
  cases htf : m.tfidf_corpus with
  | none =>
    constructor
    · simp
    · intro mt hmt
      simp at hmt
  | some corpus =>
    simp only []
    have hpair : List.Pairwise (fun a b => a < b)
        (([] : List Nat) ++
          (List.range (o.fuzzySims (normalizeText text)).length).filter
            (fun i => decide (m.config.fuzzy_threshold ≤
              (o.fuzzySims (normalizeText text)).getD i 0))) := by
      simp only [List.nil_append]
      exact List.Pairwise.sublist (List.filter_sublist _)
        (List.pairwise_lt_range _)
    obtain ⟨hdst, hforall⟩ := fuzzyStep_fold_firstwins m
      (o.fuzzySims (normalizeText text))
      ((List.range (o.fuzzySims (normalizeText text)).length).filter
        (fun i => decide (m.config.fuzzy_threshold ≤
          (o.fuzzySims (normalizeText text)).getD i 0)))
      [] []
      hpair
      (by
        intro s
        constructor
        · rintro ⟨mt, hmt, _⟩
          simp at hmt
        · rintro ⟨j, hj, _⟩
          simp at hj)
      (by
        intro mt hmt
        simp at hmt)
      List.Pairwise.nil
    refine ⟨hdst, ?_⟩
    intro mt hmt
    obtain ⟨idx, hidxmem, h1, h2, h3⟩ := hforall mt hmt
    rw [List.nil_append] at hidxmem
    rcases List.mem_filter.mp hidxmem with ⟨hr, hd⟩
    have hlen := List.mem_range.mp hr
    refine ⟨idx, hlen, of_decide_eq_true hd, h1, h2, ?_⟩
    intro j hjlt hjth
    refine h3 j ?_ hjlt
    rw [List.nil_append]
    exact List.mem_filter.mpr
      ⟨List.mem_range.mpr (lt_trans hjlt hlen), decide_eq_true hjth⟩

/-- Concrete evaluation of `fuzzy_match` over the two-skill vocabulary
with the synonym corpus ["python", "py", "java"]: the input "py" scores 1
on corpus document 1 only, and the result is the skill "java". -/
theorem fuzzyMatch_fixture_eval :
    fuzzyMatch fuzzyMatcher5 fuzzyOracles5 "py" =
      [{ skill := "java", confidence := 1, method := "fuzzy", context := none,
         category := some "uncategorized" }] := by
  unfold fuzzyMatch
  have htf : fuzzyMatcher5.tfidf_corpus = some ["python", "py", "java"] := rfl
  rw [htf]
  have hsims : fuzzyOracles5.fuzzySims (normalizeText "py") = [0, 1, 0] := rfl
  simp only [hsims]
  have hd0 : decide (fuzzyMatcher5.config.fuzzy_threshold ≤
      ([0, 1, 0] : List ℚ).getD 0 0) = false := by
    apply decide_eq_false
    rw [show (([0, 1, 0] : List ℚ).getD 0 0) = 0 from rfl,
      show fuzzyMatcher5.config.fuzzy_threshold = 85/100 from rfl]
    norm_num
  have hd1 : decide (fuzzyMatcher5.config.fuzzy_threshold ≤
      ([0, 1, 0] : List ℚ).getD 1 0) = true := by
    apply decide_eq_true
    rw [show (([0, 1, 0] : List ℚ).getD 1 0) = 1 from rfl,
      show fuzzyMatcher5.config.fuzzy_threshold = 85/100 from rfl]
    norm_num
  have hd2 : decide (fuzzyMatcher5.config.fuzzy_threshold ≤
      ([0, 1, 0] : List ℚ).getD 2 0) = false := by
    apply decide_eq_false
    rw [show (([0, 1, 0] : List ℚ).getD 2 0) = 0 from rfl,
      show fuzzyMatcher5.config.fuzzy_threshold = 85/100 from rfl]
    norm_num
  rw [show List.range ([0, 1, 0] : List ℚ).length = [0, 1, 2] from rfl]
  rw [show ([0, 1, 2] : List Nat).filter (fun i =>
      decide (fuzzyMatcher5.config.fuzzy_threshold ≤
        ([0, 1, 0] : List ℚ).getD i 0)) =
    [1] from by
      simp only [List.filter_cons, List.filter_nil, hd0, hd1, hd2]
      rfl]
  simp only [List.foldl_cons, List.foldl_nil, fuzzyStep]
  rfl

/-- C5 counterexample: the sole above-threshold corpus document of the
fixture is document 1 ("py"), owned by "python", yet the returned match is
for the skill "java" — the index-modulo mapping does not return the owner
of the hit document. -/
theorem C5_counterexample :
    ((List.range 3).filter (fun i =>
      decide (fuzzyMatcher5.config.fuzzy_threshold ≤
        ([0, 1, 0] : List ℚ).getD i 0)) = [1]) ∧
    (corpusOwners fuzzyProcessor).getD 1 "" = "python" ∧
    (fuzzyMatch fuzzyMatcher5 fuzzyOracles5 "py").map (fun mt => mt.skill)
      = ["java"] ∧
    ("java" : String) ≠ "python" := by
  refine ⟨?_, rfl, ?_, by decide⟩
  · have hd0 : decide (fuzzyMatcher5.config.fuzzy_threshold ≤
        ([0, 1, 0] : List ℚ).getD 0 0) = false := by
      apply decide_eq_false
      rw [show (([0, 1, 0] : List ℚ).getD 0 0) = 0 from rfl,
        show fuzzyMatcher5.config.fuzzy_threshold = 85/100 from rfl]
      norm_num
    have hd1 : decide (fuzzyMatcher5.config.fuzzy_threshold ≤
        ([0, 1, 0] : List ℚ).getD 1 0) = true := by
      apply decide_eq_true
      rw [show (([0, 1, 0] : List ℚ).getD 1 0) = 1 from rfl,
        show fuzzyMatcher5.config.fuzzy_threshold = 85/100 from rfl]
      norm_num
    have hd2 : decide (fuzzyMatcher5.config.fuzzy_threshold ≤
        ([0, 1, 0] : List ℚ).getD 2 0) = false := by
      apply decide_eq_false
      rw [show (([0, 1, 0] : List ℚ).getD 2 0) = 0 from rfl,
        show fuzzyMatcher5.config.fuzzy_threshold = 85/100 from rfl]
      norm_num
    rw [show List.range 3 = [0, 1, 2] from rfl]
    simp only [List.filter_cons, List.filter_nil, hd0, hd1, hd2]
    rfl
  · rw [fuzzyMatch_fixture_eval]
    rfl

/-- Witness for C5's amended theorem at the fixture's concrete match:
the returned skills are pairwise distinct, and the "java" match arises
from hit index 1 with no earlier above-threshold index resolving to the
same skill. -/
theorem C5_fuzzy_modulo_witness :
    (({ skill := "java", confidence := 1, method := "fuzzy",
        context := none,
        category := some "uncategorized" } : SkillMatch) ∈
      fuzzyMatch fuzzyMatcher5 fuzzyOracles5 "py") ∧
    List.Pairwise (fun a b : SkillMatch => a.skill ≠ b.skill)
      (fuzzyMatch fuzzyMatcher5 fuzzyOracles5 "py") ∧
    (∃ idx, idx < (fuzzyOracles5.fuzzySims (normalizeText "py")).length ∧
      fuzzyMatcher5.config.fuzzy_threshold ≤
        (fuzzyOracles5.fuzzySims (normalizeText "py")).getD idx 0 ∧
      ({ skill := "java", confidence := 1, method := "fuzzy",
         context := none,
         category := some "uncategorized" } : SkillMatch).skill =
        fuzzyMatcher5.processor.canonical_skills.getD
          (idx % fuzzyMatcher5.processor.canonical_skills.length) "" ∧
      ({ skill := "java", confidence := 1, method := "fuzzy",
         context := none,
         category := some "uncategorized" } : SkillMatch).confidence =
        (fuzzyOracles5.fuzzySims (normalizeText "py")).getD idx 0 ∧
      ∀ j, j < idx →
        fuzzyMatcher5.config.fuzzy_threshold ≤
          (fuzzyOracles5.fuzzySims (normalizeText "py")).getD j 0 →
        fuzzyMatcher5.processor.canonical_skills.getD
          (j % fuzzyMatcher5.processor.canonical_skills.length) "" ≠
          ({ skill := "java", confidence := 1, method := "fuzzy",
             context := none,
             category := some "uncategorized" } : SkillMatch).skill) := by
  have hmem : ({ skill := "java", confidence := 1, method := "fuzzy",
                 context := none,
                 category := some "uncategorized" } : SkillMatch) ∈
      fuzzyMatch fuzzyMatcher5 fuzzyOracles5 "py" := by
    rw [fuzzyMatch_fixture_eval]
    exact List.mem_singleton.mpr rfl
  exact ⟨hmem, (C5_fuzzy_modulo fuzzyMatcher5 fuzzyOracles5 "py").1,
    (C5_fuzzy_modulo fuzzyMatcher5 fuzzyOracles5 "py").2 _ hmem⟩

end SkillGap
